import Mathlib

/-!
Verification development for `generate_lkg.py`: a tool that consolidates
per-platform, per-Python-version pip-freeze snapshots into conditionally
constrained requirements files.  Python sets are modelled as `Finset`s,
dicts as association lists in insertion order, `packaging` versions as
major/minor pairs ordered lexicographically, and exceptions as `Except`
error values.  Where Python iterates a set in unspecified hash order we
enumerate in a canonical sorted order; every fact proved below is
insensitive to that enumeration order.
-/

/-! ## Canonical enumeration of finite sets

`Finset.sort` does not reduce in the kernel, so we lift `List.insertionSort`
over the underlying multiset instead; the result is independent of the
representative because sorted permutations of each other are equal. -/

section SortL

variable {α : Type} [LinearOrder α]

def leB : α → α → Prop := fun a b => a ≤ b

instance : DecidableRel (leB (α := α)) := fun a b => LinearOrder.decidableLE a b

instance : IsTrans α (leB (α := α)) := ⟨fun _ _ _ h1 h2 => le_trans h1 h2⟩

instance : IsAntisymm α (leB (α := α)) := ⟨fun _ _ h1 h2 => le_antisymm h1 h2⟩

instance : IsTotal α (leB (α := α)) := ⟨fun a b => le_total a b⟩

def sortL (s : Finset α) : List α :=
  Quot.liftOn s.val (List.insertionSort leB) (fun l1 l2 h =>
    List.eq_of_perm_of_sorted
      ((List.perm_insertionSort leB l1).trans (h.trans (List.perm_insertionSort leB l2).symm))
      (List.sorted_insertionSort leB l1)
      (List.sorted_insertionSort leB l2))

end SortL

/-! ## Python versions

`packaging.version.parse` applied to the `3.<digits>` strings appearing in
the CI filenames yields a release version with numeric components, ordered
lexicographically; leading zeros in the digit string are normalised away.
We model these versions by their two numeric components. -/

structure PyVer where
  major : Nat
  minor : Nat
deriving DecidableEq

def pvLe (a b : PyVer) : Bool := a.major < b.major || (a.major == b.major && a.minor ≤ b.minor)

instance : LinearOrder PyVer where
  le a b := pvLe a b = true
  le_refl a := by simp [pvLe]
  le_trans a b c := by simp [pvLe]; omega
  le_antisymm a b h1 h2 := by
    cases a; cases b; simp [pvLe] at h1 h2 ⊢; omega
  le_total a b := by simp [pvLe]; omega
  decidableLE a b := inferInstanceAs (Decidable (pvLe a b = true))

instance (a b : PyVer) : Decidable (a ≤ b) := inferInstanceAs (Decidable (pvLe a b = true))

instance (a b : PyVer) : Decidable (a < b) :=
  decidable_of_iff (a ≤ b ∧ ¬ b ≤ a) lt_iff_le_not_le.symm

/-- The ASCII apostrophe character used to quote values inside marker strings. -/
def q : String := String.singleton (Char.ofNat 39)

/-- Rendering of a parsed version, as Python's `str` on a `packaging` version. -/
def pvStr (v : PyVer) : String := toString v.major ++ "." ++ toString v.minor

/-! ## Operating systems

The collector only ever stores the three OS names appearing in the test
filename pattern (`macos`, `ubuntu`, `windows`); notebook files are fixed
to `ubuntu`. -/

inductive OsName
  | macos
  | ubuntu
  | windows
deriving DecidableEq

def osIdx : OsName → Nat
  | .macos => 0
  | .ubuntu => 1
  | .windows => 2

instance : LinearOrder OsName where
  le a b := osIdx a ≤ osIdx b
  le_refl a := Nat.le_refl _
  le_trans a b c h1 h2 := Nat.le_trans h1 h2
  le_antisymm a b h1 h2 := by cases a <;> cases b <;> first | rfl | (revert h1 h2; decide)
  le_total a b := Nat.le_total _ _
  decidableLE a b := inferInstanceAs (Decidable (osIdx a ≤ osIdx b))

/-- Value of `platform_map` in the source: `{'macos': 'Darwin', 'ubuntu': 'Linux', 'windows': 'Windows'}`. -/
def platform_map : OsName → String
  | .macos => "Darwin"
  | .ubuntu => "Linux"
  | .windows => "Windows"

/-- The namedtuple `FileParts(os, py_version, type)` identifying the CI job a
requirements file came from. -/
structure FileParts where
  os : OsName
  py_version : PyVer
  type : String
deriving DecidableEq

/-! ## Constraint strings

`constraint_string` is a pair of the marker text and whether it must be
parenthesized when conjoined by `and`.  We additionally keep the structured
content of each constraint (`VerCond`, `OsCstr`) so that satisfaction of the
rendered marker by an environment can be stated; the rendering functions
below produce exactly the f-strings of the source. -/

structure CStr where
  constraint : String
  needs_paren : Bool
deriving DecidableEq

/-- Wrap in parentheses when the flag asks for it and we are inside an `and`. -/
def constraint_to_string (cstr : CStr) (in_and : Bool) : String :=
  if cstr.needs_paren && in_and then "(" ++ cstr.constraint ++ ")" else cstr.constraint

/-- Structured content of the python-version constraint returned by `version_range`. -/
inductive VerCond
  | ub (v : PyVer)
  | lb (v : PyVer)
  | veq (v : PyVer)
  | rng (lo hi : PyVer)
deriving DecidableEq

/-- Rendering of `VerCond` as the exact f-strings of `version_range`; note the
source passes `False` for `needs_paren` in all four branches. -/
def verCondStr : VerCond → CStr
  | .ub v => ⟨"python_version<=" ++ q ++ pvStr v ++ q, false⟩
  | .lb v => ⟨q ++ pvStr v ++ q ++ "<=python_version", false⟩
  | .veq v => ⟨"python_version==" ++ q ++ pvStr v ++ q, false⟩
  | .rng lo hi =>
      ⟨q ++ pvStr lo ++ q ++ "<=python_version and python_version<=" ++ q ++ pvStr hi ++ q, false⟩

/-- PEP 508 satisfaction of a python-version marker by an environment running
python version `py` (comparisons between `python_version` and a quoted version
literal follow version ordering). -/
def verSat : VerCond → PyVer → Bool
  | .ub v, py => py ≤ v
  | .lb v, py => v ≤ py
  | .veq v, py => py = v
  | .rng lo hi, py => decide (lo ≤ py) && decide (py ≤ hi)

def verSatO : Option VerCond → PyVer → Bool
  | none, _ => true
  | some c, py => verSat c py

/-- Structured content of the OS constraint returned by `os_constraint`. -/
inductive OsCstr
  | single (o : OsName)
  | multi (os : List OsName)
deriving DecidableEq

def osEqStr (o : OsName) : String := "platform_system==" ++ q ++ platform_map o ++ q

/-- Rendering of `OsCstr` as the exact strings of `os_constraint`: a single
equality check (no parens needed) or an ` or `-joined disjunction that is both
parenthesized in the text and flagged as needing parens. -/
def osCstrStr : OsCstr → CStr
  | .single o => ⟨osEqStr o, false⟩
  | .multi l => ⟨"(" ++ String.intercalate " or " (l.map osEqStr) ++ ")", true⟩

/-- Satisfaction of an OS marker by an environment running OS `os`. -/
def osSat : OsCstr → OsName → Bool
  | .single o, x => x = o
  | .multi l, x => x ∈ l

def osSatO : Option OsCstr → OsName → Bool
  | none, _ => true
  | some c, x => osSat c x

/-! ## `version_range`

The failure modes of the Python function are modelled explicitly:
`sorted(all_py_versions)[0]` on an empty domain raises IndexError,
`version_inds[v]` on a version outside the domain raises KeyError,
`min(inds)` on an empty `versions` raises ValueError, and the contiguity
`assert` raises AssertionError.  The checks appear in the evaluation order
of the source. -/

inductive RErr
  | indexError
  | keyError
  | valueError
  | assertionError
deriving DecidableEq

deriving instance DecidableEq for Except

/-- Position of a version in a list, mirroring the dict built by
`{v: i for i, v in enumerate(sorted_versions)}` (the sorted list has no
duplicates, so each key maps to its unique position). -/
def idxOf (v : PyVer) : List PyVer → Nat
  | [] => 0
  | x :: xs => if x = v then 0 else idxOf v xs + 1

def vIndex (allV : Finset PyVer) (v : PyVer) : Nat := idxOf v (sortL allV)

/-- The contiguity assertion `sorted(inds) == list(range(min(inds), max(inds) + 1))`.
At the program point where the assert runs, `versions ⊆ all` holds (a missing
key would have raised earlier), so the indices are distinct and the condition
is equivalent to the index image being an integer interval. -/
def contigCheck (versions allV : Finset PyVer) (h : versions.Nonempty) : Bool :=
  let inds := versions.image (vIndex allV)
  decide (inds = Finset.Icc (inds.min' (h.image _)) (inds.max' (h.image _)))

/-- Shallow embedding of `version_range(versions, all_py_versions)`.  The
source receives `versions` as a list of distinct python versions whose order
it never relies on (only `min`/`max`/membership/length, and `versions[0]` on a
singleton), so a `Finset` is faithful. -/
def version_range (versions allV : Finset PyVer) : Except RErr (Option VerCond) :=
  match (sortL allV).head?, (sortL allV).getLast? with
  | some min_version, some max_version =>
    if versions ⊆ allV then
      if hne : versions.Nonempty then
        if contigCheck versions allV hne then
          if min_version ∈ versions then
            if max_version ∈ versions then Except.ok none
            else Except.ok (some (.ub (versions.max' hne)))
          else if max_version ∈ versions then Except.ok (some (.lb (versions.min' hne)))
          else if versions.card = 1 then Except.ok (some (.veq (versions.min' hne)))
          else Except.ok (some (.rng (versions.min' hne) (versions.max' hne)))
        else Except.error .assertionError
      else Except.error .valueError
    else Except.error .keyError
  | _, _ => Except.error .indexError

/-- `version_range` with its result rendered to the source's constraint strings. -/
def version_range_str (versions allV : Finset PyVer) : Except RErr (Option CStr) :=
  (version_range versions allV).map (Option.map verCondStr)

/-! ## `os_constraint` and `combined_constraint` -/

/-- Shallow embedding of `os_constraint(oses, all_oses)`.  The Python function
compares lengths (equivalent to set equality once `oses ⊆ all_oses`, which the
collector guarantees) and otherwise renders the observed OS set; the set is
enumerated here in canonical sorted order, standing for Python's unspecified
set-iteration order. -/
def os_constraint (oses all_oses : Finset OsName) : Option OsCstr :=
  if oses.card = all_oses.card then none
  else
    match sortL oses with
    | [o] => some (.single o)
    | l => some (.multi l)

/-- Shallow embedding of `combined_constraint(oses, versions)`: the version
side comes first, and each side is parenthesized iff its own flag is set. -/
def combined_constraint (oses : Option CStr) (versions : Option CStr) : Option String :=
  match oses, versions with
  | none, none => none
  | none, some v => some (constraint_to_string v false)
  | some o, none => some (constraint_to_string o false)
  | some o, some v =>
      some (constraint_to_string v true ++ " and " ++ constraint_to_string o true)

/-! ## The conflict resolver inside `get_reqs`

`reqs[req]` is a dict from package-version string to the set of `FileParts`
observations; we model it as an association list in insertion order.  The
resolver first builds `reverse_map : (py_version, os) → set of versions`
from the *original* map, then for every key with two or more versions removes,
from every version other than the minimum, each observation whose `os` field
equals the key's os (the source compares only `file_parts.os == k[1]` and
`pkg_version != min_ver`).  The removals for distinct conflicting keys are
independent set-subtractions computed from the original map, so the loop's
final state is each observation set filtered by "no conflicting key demands
my removal", which is how `resolveReq` is written. -/

abbrev PkgVer := String

abbrev ReqMap := List (PkgVer × Finset FileParts)

/-- Splitting a character list on the dot separator. -/
def splitDots : List Char → List (List Char)
  | [] => [[]]
  | c :: cs =>
    if c = '.' then [] :: splitDots cs
    else
      match splitDots cs with
      | [] => [[c]]
      | g :: gs => (c :: g) :: gs

/-- Numeric value of one version component (the release versions compared here
have plain digit components). -/
def compVal (l : List Char) : Nat := l.foldl (fun a c => a * 10 + (c.toNat - 48)) 0

/-- Numeric sort key of a version string, as `packaging.version.parse` orders
the plain release versions appearing here: split on dots, numeric components. -/
def pkgVerKey (s : String) : List Nat := (splitDots s.data).map compVal

def keyAllZero : List Nat → Bool
  | [] => true
  | b :: bl => b == 0 && keyAllZero bl

/-- Strict comparison of release-version keys, with implicit zero padding
(PEP 440 treats `1.0` and `1.0.0` as equal): an exhausted left key is less
than the remainder of the right key exactly when the latter is not all zero. -/
def keyLt : List Nat → List Nat → Bool
  | [], bl => !(keyAllZero bl)
  | _ :: _, [] => false
  | a :: al, b :: bl => if a < b then true else if b < a then false else keyLt al bl

/-- The versions of `reverse_map[(py, os)]`: those whose observation set holds
an observation at that environment. -/
def revMap (m : ReqMap) (k : PyVer × OsName) : List PkgVer :=
  (m.filter (fun p => decide (∃ fp ∈ p.2, fp.py_version = k.1 ∧ fp.os = k.2))).map (fun p => p.1)

/-- Python's `min(reverse_map[k], key=packaging.version.parse)`: the earliest
element of minimal key. -/
def minVerAt (m : ReqMap) (k : PyVer × OsName) : PkgVer :=
  match revMap m k with
  | [] => ""
  | x :: xs => xs.foldl (fun acc y => if keyLt (pkgVerKey y) (pkgVerKey acc) then y else acc) x

/-- All environments appearing in some observation set: the keys of `reverse_map`. -/
def envKeys (m : ReqMap) : Finset (PyVer × OsName) :=
  m.foldr (fun p acc => p.2.image (fun fp => (fp.py_version, fp.os)) ∪ acc) ∅

/-- An environment with two or more package versions observed. -/
def isConflict (m : ReqMap) (k : PyVer × OsName) : Prop := 1 < (revMap m k).length

instance (m : ReqMap) (k : PyVer × OsName) : Decidable (isConflict m k) := by
  unfold isConflict
  infer_instance

/-- The source's removal condition for an observation `fp` recorded under
version `v`: some conflicting key matches `fp.os` while `v` is not that key's
minimum version.  Note the python-version of `fp` is not consulted. -/
def removedBy (m : ReqMap) (v : PkgVer) (fp : FileParts) : Prop :=
  ∃ k ∈ envKeys m, isConflict m k ∧ fp.os = k.2 ∧ v ≠ minVerAt m k

instance (m : ReqMap) (v : PkgVer) (fp : FileParts) : Decidable (removedBy m v fp) := by
  unfold removedBy
  infer_instance

/-- The conflict-resolution pass of `get_reqs` on one package's version map. -/
def resolveReq (m : ReqMap) : ReqMap :=
  m.map (fun p => (p.1, p.2.filter (fun fp => ¬ removedBy m p.1 fp)))

/-! ## The constraint synthesizer inside `get_reqs`

For one package version with observation set `S`: group observations by
python version (`py_version_map`), compute each python version's OS
constraint against `py_version_oses`, group python versions by equal OS
constraint (`os_constraints` — equality of the structured constraint
coincides with equality of the rendered dict key), and run `version_range`
on each group.  Python's set/dict iteration orders are canonicalized by
sorting; the emitted set of lines does not depend on that order. -/

def pysOf (S : Finset FileParts) : Finset PyVer := S.image (fun fp => fp.py_version)

/-- `py_version_map[py]`: the set of OSes observed for `py` in `S`. -/
def pyVersionMap (S : Finset FileParts) (py : PyVer) : Finset OsName :=
  (S.filter (fun fp => fp.py_version = py)).image (fun fp => fp.os)

/-- The `os_constraints` dict key produced by python version `py`. -/
def groupKey (S : Finset FileParts) (pyOses : PyVer → Finset OsName) (py : PyVer) : Option OsCstr :=
  os_constraint (pyVersionMap S py) (pyOses py)

/-- The distinct `os_constraints` keys of `S`. -/
def groupKeys (S : Finset FileParts) (pyOses : PyVer → Finset OsName) : List (Option OsCstr) :=
  ((sortL (pysOf S)).map (groupKey S pyOses)).dedup

/-- `os_constraints[c]`: the python versions grouped under OS-constraint `c`. -/
def grpVers (S : Finset FileParts) (pyOses : PyVer → Finset OsName) (c : Option OsCstr) :
    Finset PyVer :=
  (pysOf S).filter (fun py => groupKey S pyOses py = c)

/-- One emitted line's constraint content: python-version side and OS side. -/
abbrev Line := Option VerCond × Option OsCstr

def collectLines (allPy : Finset PyVer) :
    List (Option OsCstr × Finset PyVer) → Except RErr (List Line)
  | [] => Except.ok []
  | (c, vs) :: rest =>
    match version_range vs allPy, collectLines allPy rest with
    | Except.ok vc, Except.ok ls => Except.ok ((vc, c) :: ls)
    | Except.error e, _ => Except.error e
    | _, Except.error e => Except.error e

/-- The constraint lines synthesized for one package version with observation
set `S` (the body of the `for pkg_version in reqs[req]` loop). -/
def synthLines (S : Finset FileParts) (pyOses : PyVer → Finset OsName) (allPy : Finset PyVer) :
    Except RErr (List Line) :=
  collectLines allPy ((groupKeys S pyOses).map (fun c => (c, grpVers S pyOses c)))

/-- Satisfaction of a line's combined marker by environment `e = (py, os)`. -/
def lineSat (line : Line) (e : PyVer × OsName) : Bool :=
  verSatO line.1 e.1 && osSatO line.2 e.2

/-- The collection's environment domain: all `(python_version, os)` pairs the
metadata records. -/
def envDomain (allPy : Finset PyVer) (pyOses : PyVer → Finset OsName) :
    Finset (PyVer × OsName) :=
  allPy.biUnion (fun py => (pyOses py).image (fun o => (py, o)))

/-! ## The requirements emitter -/

/-- Rendering of one output line, `req==ver` with an optional `; marker`. -/
def lineStr (req : String) (ver : PkgVer) (line : Line) : String :=
  match combined_constraint (line.2.map osCstrStr) (line.1.map verCondStr) with
  | none => req ++ "==" ++ ver
  | some c => req ++ "==" ++ ver ++ "; " ++ c

def versionLines (req : String) (pyOses : PyVer → Finset OsName) (allPy : Finset PyVer) :
    List (PkgVer × Finset FileParts) → Except RErr (List String)
  | [] => Except.ok []
  | (v, S) :: rest =>
    match synthLines S pyOses allPy, versionLines req pyOses allPy rest with
    | Except.ok ls, Except.ok rs => Except.ok (ls.map (lineStr req v) ++ rs)
    | Except.error e, _ => Except.error e
    | _, Except.error e => Except.error e

/-- The dataclass `CollectionMetadata`; `reqs` is a dict of dicts, modelled as
nested association lists in insertion order. -/
structure CollectionMetadata where
  all_file_parts : Finset FileParts
  py_version_oses : PyVer → Finset OsName
  all_py_versions : Finset PyVer
  reqs : List (String × ReqMap)

def allReqLines (pyOses : PyVer → Finset OsName) (allPy : Finset PyVer) :
    List (String × ReqMap) → Except RErr (List String)
  | [] => Except.ok []
  | (req, m) :: rest =>
    match versionLines req pyOses allPy (resolveReq m), allReqLines pyOses allPy rest with
    | Except.ok ls, Except.ok rs => Except.ok (ls ++ rs)
    | Except.error e, _ => Except.error e
    | _, Except.error e => Except.error e

/-- Lexicographic order on strings by code point, as Python compares `str`. -/
def clLt : List Char → List Char → Bool
  | [], [] => false
  | [], _ :: _ => true
  | _ :: _, [] => false
  | a :: al, b :: bl => if a < b then true else if b < a then false else clLt al bl

def strLtB (a b : String) : Bool := clLt a.data b.data

def insertSorted (x : String) : List String → List String
  | [] => [x]
  | y :: ys => if strLtB y x then y :: insertSorted x ys else x :: y :: ys

/-- Python's `sorted` on the collected constraint lines. -/
def sortStrs (l : List String) : List String := l.foldr insertSorted []

/-- Shallow embedding of `get_reqs(metadata)`: resolve conflicts per package,
synthesize each surviving version's lines, sort them and join with newlines. -/
def get_reqs (meta : CollectionMetadata) : Except RErr String :=
  (allReqLines meta.py_version_oses meta.all_py_versions meta.reqs).map
    (fun ls => String.intercalate "\n" (sortStrs ls))

/-- The `versions` arguments of the `version_range` calls `get_reqs` makes. -/
def versionRangeCalls (meta : CollectionMetadata) : List (Finset PyVer) :=
  meta.reqs.flatMap (fun p => (resolveReq p.2).flatMap (fun vs =>
    (groupKeys vs.2 meta.py_version_oses).map (grpVers vs.2 meta.py_version_oses)))

/-! ## The filename classifier inside `make_req_files`

The file regex is
`^((tests-(macos|ubuntu|windows)-latest-(3\.\d+)-([^-]+))|(notebooks-(.*)-(3\.\d+)))-requirements.txt$`.
Notable details of its semantics: the dot in `requirements.txt` is an
unescaped wildcard (any character other than a newline), `$` also matches
just before a single trailing newline, `\d+` and `[^-]+` munch maximally
(the character after each is a literal the class excludes, so backtracking
can never shorten them), and `(.*)` is greedy, so the longest job-type
prefix wins.  `re.search` with the `^` anchor and no MULTILINE flag can only
match at the start of the string. -/

def chars (s : String) : List Char := s.data

/-- Consume an exact literal from the front of the input. -/
def stripL : List Char → List Char → Option (List Char)
  | [], l => some l
  | _ :: _, [] => none
  | p :: ps, c :: cs => if p = c then stripL ps cs else none

/-- Numeric value of the matched digit group, as `packaging.version.parse`
reads `3.<digits>` (leading zeros are normalised away). -/
def dsVal (ds : List Char) : Nat := ds.foldl (fun a c => a * 10 + (c.toNat - 48)) 0

/-- What may follow the final `txt`: nothing, or the single trailing newline
that `$` tolerates. -/
def tailOkB : List Char → Bool
  | [] => true
  | [c] => c == '\n'
  | _ => false

/-- Match `.txt$` (wildcard dot) against the rest of the input. -/
def matchEnd : List Char → Bool
  | c :: rest =>
    (c != '\n') &&
      (match stripL (chars "txt") rest with
       | some t => tailOkB t
       | none => false)
  | [] => false

/-- The `(macos|ubuntu|windows)` alternation, tried left to right; the three
literals differ in their first character, so at most one branch consumes. -/
def parseOs (l : List Char) : Option (OsName × List Char) :=
  match stripL (chars "macos") l with
  | some r => some (.macos, r)
  | none =>
    match stripL (chars "ubuntu") l with
    | some r => some (.ubuntu, r)
    | none => (stripL (chars "windows") l).map (fun r => (.windows, r))

/-- Tail of the test pattern after the job type: `-requirements.txt$`. -/
def matchAReq (os : OsName) (mn : Nat) (jt : String) (r6 : List Char) : Option FileParts :=
  (stripL (chars "-requirements") r6).bind (fun r7 =>
    if matchEnd r7 then some ⟨os, ⟨3, mn⟩, jt⟩ else none)

/-- The `-([^-]+)` part of the test pattern: a literal hyphen, then a maximal
non-empty run of non-hyphen characters (maximal because the next literal is a
hyphen, so backtracking to a shorter run can never succeed). -/
def matchADash (os : OsName) (mn : Nat) : List Char → Option FileParts
  | [] => none
  | c :: r5 =>
      if c = '-' then
        if r5.takeWhile (fun x => x != '-') = [] then none
        else matchAReq os mn (String.mk (r5.takeWhile (fun x => x != '-')))
          (r5.dropWhile (fun x => x != '-'))
      else none

/-- The `\d+` of the test pattern: a maximal non-empty digit run (maximal
because the next required character is a hyphen). -/
def matchADigits (os : OsName) (r3 : List Char) : Option FileParts :=
  if r3.takeWhile Char.isDigit = [] then none
  else matchADash os (dsVal (r3.takeWhile Char.isDigit)) (r3.dropWhile Char.isDigit)

/-- Deterministic matcher for the test-filename alternative of the regex. -/
def matchA (l : List Char) : Option FileParts :=
  (stripL (chars "tests-") l).bind (fun r1 =>
    (parseOs r1).bind (fun p =>
      (stripL (chars "-latest-3.") p.2).bind (fun r3 =>
        matchADigits p.1 r3)))

/-- Match `(3\.\d+)-requirements.txt$`, the tail of the notebook alternative;
the digit run is again forced maximal by the following literal hyphen. -/
def matchBTail (l : List Char) : Option Nat :=
  (stripL (chars "3.") l).bind (fun r1 =>
    if r1.takeWhile Char.isDigit = [] then none
    else
      (stripL (chars "-requirements") (r1.dropWhile Char.isDigit)).bind (fun r3 =>
        if matchEnd r3 then some (dsVal (r1.takeWhile Char.isDigit)) else none))

/-- One candidate split of the greedy `(.*)-` of the notebook alternative:
job-type prefix of length `i` (which `.` forbids from containing a newline),
then a literal hyphen, then the tail pattern. -/
def matchBDash (g7 : List Char) : List Char → Option (String × Nat)
  | [] => none
  | c :: rest => if c = '-' then (matchBTail rest).map (fun n => (String.mk g7, n)) else none

def matchBAt (r : List Char) (i : Nat) : Option (String × Nat) :=
  if '\n' ∈ r.take i then none else matchBDash (r.take i) (r.drop i)

/-- Deterministic matcher for the notebook alternative: the greedy `(.*)` is
realised by trying the longest job-type prefix first. -/
def matchB (l : List Char) : Option (String × Nat) :=
  (stripL (chars "notebooks-") l).bind (fun r =>
    ((List.range (r.length + 1)).reverse).findSome? (matchBAt r))

inductive FileMatch
  | test (fp : FileParts)
  | notebook (fp : FileParts)
deriving DecidableEq

/-- The filename classifier: the alternation tries the test pattern first;
`group(2)`/`group(6)` are non-empty whenever their alternative matched, so
the source's truthiness checks coincide with which alternative matched.
Notebook files get `os='ubuntu'`. -/
def classifyList (l : List Char) : Option FileMatch :=
  match matchA l with
  | some fp => some (.test fp)
  | none => (matchB l).map (fun p => .notebook ⟨.ubuntu, ⟨3, p.2⟩, p.1⟩)

def classifyFile (file : String) : Option FileMatch := classifyList file.data

/-! ## Per-line processing inside `make_req_files` -/

/-- Remove the single trailing newline of a line produced by Python file
iteration, which the `$` of the requirement regex skips over; such lines
contain no interior newline. -/
def dropTrailingNl (l : List Char) : List Char :=
  match l.reverse with
  | '\n' :: r => r.reverse
  | _ => l

/-- Split at the first `==`, as the lazy `^(.*?)==(.*)$` does. -/
def splitFirstEqEq : List Char → Option (List Char × List Char)
  | [] => none
  | '=' :: '=' :: rest => some ([], rest)
  | c :: rest => (splitFirstEqEq rest).map (fun pr => (c :: pr.1, pr.2))

/-- The requirement-line regex `^(.*?)==(.*)$`: name and pinned version. -/
def reqMatch (line : String) : Option (String × String) :=
  (splitFirstEqEq (dropTrailingNl line.data)).map (fun pr => (String.mk pr.1, String.mk pr.2))

inductive PyErr
  | attributeError
deriving DecidableEq

def reqsInsert2 : ReqMap → PkgVer → FileParts → ReqMap
  | [], v, fp => [(v, {fp})]
  | (v0, S) :: rest, v, fp =>
    if v0 = v then (v0, insert fp S) :: rest else (v0, S) :: reqsInsert2 rest v fp

def reqsInsert : List (String × ReqMap) → String → PkgVer → FileParts → List (String × ReqMap)
  | [], name, v, fp => [(name, [(v, {fp})])]
  | (n0, m) :: rest, name, v, fp =>
    if n0 = name then (n0, reqsInsert2 m v fp) :: rest else (n0, m) :: reqsInsert rest name v fp

/-- Record one observation in a collection: the four `add` statements of the
matched branch. -/
def addObs (meta : CollectionMetadata) (fp : FileParts) (name ver : String) :
    CollectionMetadata :=
  { all_file_parts := insert fp meta.all_file_parts
    py_version_oses := fun py =>
      if py = fp.py_version then insert fp.os (meta.py_version_oses py) else meta.py_version_oses py
    all_py_versions := insert fp.py_version meta.all_py_versions
    reqs := reqsInsert meta.reqs name ver fp }

/-- Body of the per-line loop of `make_req_files` for one `(file, line)` pair.
When the filename matches neither alternative, `file_match` is `None` and the
guard `file_match.group(2)` raises AttributeError.  When the filename matched
but the line has no `==`, `match` is `None` and `match.group(1)` inside the
branch raises AttributeError (after three of the four `add` statements have
run; the exception aborts the whole process, so the partial mutation is never
observed and the embedding reports only the error). -/
def processLine (file line : String) (tm nm : CollectionMetadata) :
    Except PyErr (CollectionMetadata × CollectionMetadata) :=
  let m := reqMatch line
  match classifyFile file with
  | none => Except.error .attributeError
  | some (.test fp) =>
    match m with
    | none => Except.error .attributeError
    | some (name, ver) => Except.ok (addObs tm fp name ver, nm)
  | some (.notebook fp) =>
    match m with
    | none => Except.error .attributeError
    | some (name, ver) => Except.ok (tm, addObs nm fp name ver)

/-! ## Filename grammars

`formA`/`formB` describe exactly the shapes the regex accepts (wildcard in
place of the dot, optional trailing newline); `specFormA`/`specFormB` word
the shapes as the specification does, with a literal `.txt` and the match
anchored over the entire filename. -/

def osChars : OsName → List Char
  | .macos => chars "macos"
  | .ubuntu => chars "ubuntu"
  | .windows => chars "windows"

def digitsOk (ds : List Char) : Prop := ds ≠ [] ∧ ∀ c ∈ ds, c.isDigit = true

def jtAOk (jt : List Char) : Prop := jt ≠ [] ∧ ∀ c ∈ jt, c ≠ '-'

def tailOk (t : List Char) : Prop := t = [] ∨ t = ['\n']

def formA (l : List Char) (os : OsName) (mn : Nat) (jt : List Char) : Prop :=
  ∃ ds c t, digitsOk ds ∧ jtAOk jt ∧ c ≠ '\n' ∧ tailOk t ∧ mn = dsVal ds ∧
    l = chars "tests-" ++ osChars os ++ chars "-latest-3." ++ ds ++
        '-' :: (jt ++ chars "-requirements" ++ c :: (chars "txt" ++ t))

def formB (l : List Char) (jt : List Char) (mn : Nat) : Prop :=
  ∃ ds c t, digitsOk ds ∧ '\n' ∉ jt ∧ c ≠ '\n' ∧ tailOk t ∧ mn = dsVal ds ∧
    l = chars "notebooks-" ++
        (jt ++ '-' :: (chars "3." ++ ds ++ chars "-requirements" ++ c :: (chars "txt" ++ t)))

def specFormA (l : List Char) : Prop :=
  ∃ os ds jt, digitsOk ds ∧ jtAOk jt ∧
    l = chars "tests-" ++ osChars os ++ chars "-latest-3." ++ ds ++
        '-' :: (jt ++ chars "-requirements.txt")

def specFormB (l : List Char) : Prop :=
  ∃ jt ds, digitsOk ds ∧ '\n' ∉ jt ∧
    l = chars "notebooks-" ++ (jt ++ '-' :: (chars "3." ++ ds ++ chars "-requirements.txt"))

/-- A filename of one of the two forms stated by the specification. -/
def specForm (l : List Char) : Prop := specFormA l ∨ specFormB l

/-! ## Order facts about the sorted domain -/

section SortLFacts

variable {α : Type} [LinearOrder α]

theorem sortL_sorted (s : Finset α) : (sortL s).Sorted (leB (α := α)) := by
  rcases s with ⟨m, hm⟩
  induction m using Quot.ind
  exact List.sorted_insertionSort leB _

theorem sortL_coe (s : Finset α) : (sortL s : Multiset α) = s.val := by
  rcases s with ⟨m, hm⟩
  induction m using Quot.ind
  exact Multiset.coe_eq_coe.mpr (List.perm_insertionSort leB _)

theorem sortL_mem (s : Finset α) (a : α) : a ∈ sortL s ↔ a ∈ s := by
  rw [← Multiset.mem_coe, sortL_coe]
  rfl

theorem sortL_nodup (s : Finset α) : (sortL s).Nodup := by
  have h := s.nodup
  rw [← sortL_coe s] at h
  exact h

theorem sortL_length (s : Finset α) : (sortL s).length = s.card := by
  have := congrArg Multiset.card (sortL_coe s)
  simpa using this

theorem sortL_sorted_lt (s : Finset α) : (sortL s).Sorted (· < ·) := by
  have h1 := sortL_sorted s
  have h2 := sortL_nodup s
  unfold List.Sorted at *
  have h3 := List.Pairwise.and h1 h2
  exact h3.imp (fun h => lt_of_le_of_ne h.1 h.2)

end SortLFacts

theorem pvLe_iff (a b : PyVer) :
    a ≤ b ↔ (a.major < b.major ∨ (a.major = b.major ∧ a.minor ≤ b.minor)) := by
  show pvLe a b = true ↔ _
  simp [pvLe]

theorem idxOf_lt_length {v : PyVer} : ∀ {l : List PyVer}, v ∈ l → idxOf v l < l.length := by
  intro l h
  induction l with
  | nil => cases h
  | cons x xs ih =>
    by_cases hx : x = v
    · simp [idxOf, hx]
    · rcases List.mem_cons.mp h with h1 | h2
      · exact absurd h1.symm hx
      · simpa [idxOf, hx] using ih h2

theorem get_idxOf {v : PyVer} : ∀ {l : List PyVer} (h : v ∈ l),
    l.get ⟨idxOf v l, idxOf_lt_length h⟩ = v := by
  intro l h
  induction l with
  | nil => cases h
  | cons x xs ih =>
    by_cases hx : x = v
    · simp [idxOf, hx]
    · rcases List.mem_cons.mp h with h1 | h2
      · exact absurd h1.symm hx
      · simp only [idxOf, hx, if_false]
        exact ih h2

theorem sorted_get_le (l : List PyVer) (hs : l.Sorted (· < ·)) (i j : Fin l.length) :
    (i : Nat) ≤ j ↔ l.get i ≤ l.get j := by
  have key : ∀ a b : Fin l.length, (a : Nat) < b → l.get a < l.get b :=
    fun a b hab => List.pairwise_iff_get.mp hs a b hab
  constructor
  · intro hij
    rcases Nat.lt_or_ge (i : Nat) (j : Nat) with h | h
    · exact le_of_lt (key i j h)
    · have : (i : Nat) = j := Nat.le_antisymm hij h
      have : i = j := Fin.ext this
      subst this
      exact le_refl _
  · intro hle
    by_contra hput
    have hji : (j : Nat) < i := Nat.lt_of_not_le hput
    exact absurd hle (not_le_of_lt (key j i hji))

theorem vIndex_le_iff (allV : Finset PyVer) (a b : PyVer) (ha : a ∈ allV) (hb : b ∈ allV) :
    vIndex allV a ≤ vIndex allV b ↔ a ≤ b := by
  have ha' : a ∈ sortL allV := (sortL_mem allV a).mpr ha
  have hb' : b ∈ sortL allV := (sortL_mem allV b).mpr hb
  have h1 := sorted_get_le (sortL allV) (sortL_sorted_lt allV)
      ⟨idxOf a (sortL allV), idxOf_lt_length ha'⟩ ⟨idxOf b (sortL allV), idxOf_lt_length hb'⟩
  rw [get_idxOf ha', get_idxOf hb'] at h1
  exact h1

theorem vIndex_inj (allV : Finset PyVer) (a b : PyVer) (ha : a ∈ allV) (hb : b ∈ allV)
    (h : vIndex allV a = vIndex allV b) : a = b := by
  have h1 := (vIndex_le_iff allV a b ha hb).mp (le_of_eq h)
  have h2 := (vIndex_le_iff allV b a hb ha).mp (le_of_eq h.symm)
  exact le_antisymm h1 h2

/-- Contiguity transported back to versions: anything in the domain lying
between two members of a contiguous subset is itself a member. -/
theorem contig_between (V allV : Finset PyVer) (h : V.Nonempty)
    (hc : contigCheck V allV h = true) (hsub : V ⊆ allV) (a b x : PyVer)
    (haV : a ∈ V) (hbV : b ∈ V) (hx : x ∈ allV) (hax : a ≤ x) (hxb : x ≤ b) : x ∈ V := by
  simp only [contigCheck, decide_eq_true_eq] at hc
  have hmem : vIndex allV x ∈ V.image (vIndex allV) := by
    rw [hc]
    rw [Finset.mem_Icc]
    constructor
    · refine le_trans (Finset.min'_le _ _ (Finset.mem_image_of_mem _ haV)) ?_
      exact (vIndex_le_iff allV a x (hsub haV) hx).mpr hax
    · refine le_trans ?_ (Finset.le_max' _ _ (Finset.mem_image_of_mem _ hbV))
      exact (vIndex_le_iff allV x b hx (hsub hbV)).mpr hxb
  rcases Finset.mem_image.mp hmem with ⟨y, hyV, hy⟩
  have : y = x := vIndex_inj allV y x (hsub hyV) hx hy
  exact this ▸ hyV

/-! ## Case analysis of `version_range` over a nonempty domain -/

theorem sortL_ne_nil (D : Finset PyVer) (hD : D.Nonempty) : sortL D ≠ [] := by
  intro h
  rcases hD with ⟨a, ha⟩
  have := (sortL_mem D a).mpr ha
  rw [h] at this
  cases this

theorem sortL_head_min (D : Finset PyVer) (hD : D.Nonempty) :
    (sortL D).head? = some (D.min' hD) := by
  rcases hl : sortL D with _ | ⟨a, t⟩
  · exact absurd hl (sortL_ne_nil D hD)
  · have haD : a ∈ D := (sortL_mem D a).mp (by rw [hl]; exact List.mem_cons_self a t)
    have hmin : ∀ b ∈ D, a ≤ b := by
      intro b hb
      have hb' : b ∈ sortL D := (sortL_mem D b).mpr hb
      rw [hl] at hb'
      rcases List.mem_cons.mp hb' with h1 | h2
      · exact le_of_eq h1.symm
      · have hs := sortL_sorted (α := PyVer) D
        rw [hl] at hs
        exact (List.sorted_cons.mp hs).1 b h2
    have : a = D.min' hD := le_antisymm (Finset.le_min' D hD a hmin) (Finset.min'_le D a haD)
    simp [this]

theorem sortL_getLast_max (D : Finset PyVer) (hD : D.Nonempty) :
    (sortL D).getLast? = some (D.max' hD) := by
  have hne := sortL_ne_nil D hD
  have hmem : (sortL D).getLast hne ∈ sortL D := List.getLast_mem hne
  have hlastD : (sortL D).getLast hne ∈ D := (sortL_mem D _).mp hmem
  have hmax : ∀ b ∈ D, b ≤ (sortL D).getLast hne := by
    intro b hb
    have hb' : b ∈ sortL D := (sortL_mem D b).mpr hb
    rcases List.mem_iff_get.mp hb' with ⟨i, hi⟩
    have hlen : 0 < (sortL D).length := List.length_pos.mpr hne
    have hglast : (sortL D).getLast hne = (sortL D).get ⟨(sortL D).length - 1, by omega⟩ := by
      simp [List.getLast_eq_getElem]
    rw [hglast, ← hi]
    refine (sorted_get_le (sortL D) (sortL_sorted_lt D) i ⟨(sortL D).length - 1, by omega⟩).mp ?_
    have := i.isLt
    simp
    omega
  have : (sortL D).getLast hne = D.max' hD :=
    le_antisymm (Finset.le_max' D _ hlastD) (Finset.max'_le D hD _ hmax)
  rw [List.getLast?_eq_getLast _ hne, this]

theorem version_range_eq (versions D : Finset PyVer) (hD : D.Nonempty) :
    version_range versions D =
      if versions ⊆ D then
        if hne : versions.Nonempty then
          if contigCheck versions D hne then
            if D.min' hD ∈ versions then
              if D.max' hD ∈ versions then Except.ok none
              else Except.ok (some (.ub (versions.max' hne)))
            else if D.max' hD ∈ versions then Except.ok (some (.lb (versions.min' hne)))
            else if versions.card = 1 then Except.ok (some (.veq (versions.min' hne)))
            else Except.ok (some (.rng (versions.min' hne) (versions.max' hne)))
          else Except.error .assertionError
        else Except.error .valueError
      else Except.error .keyError := by
  unfold version_range
  rw [sortL_head_min D hD, sortL_getLast_max D hD]


/-- Success of `version_range` forces the subset, nonemptiness and contiguity
checks, and the returned condition covers exactly the input versions among
the domain. -/
theorem version_range_sat (V D : Finset PyVer) (vc : Option VerCond)
    (hok : version_range V D = Except.ok vc) :
    V ⊆ D ∧ V.Nonempty ∧ ∀ py ∈ D, (verSatO vc py = true ↔ py ∈ V) := by
  have hD : D.Nonempty := by
    by_contra hempty
    rcases hl : sortL D with _ | ⟨a, t⟩
    · unfold version_range at hok
      rw [hl] at hok
      cases hok
    · exact hempty ⟨a, (sortL_mem D a).mp (by rw [hl]; exact List.mem_cons_self a t)⟩
  rw [version_range_eq V D hD] at hok
  by_cases hsub : V ⊆ D
  · rw [if_pos hsub] at hok
    by_cases hne : V.Nonempty
    · rw [dif_pos hne] at hok
      by_cases hc : contigCheck V D hne = true
      · rw [if_pos hc] at hok
        refine ⟨hsub, hne, ?_⟩
        intro py hpy
        by_cases hmin : D.min' hD ∈ V
        · by_cases hmax : D.max' hD ∈ V
          · simp only [if_pos hmin, if_pos hmax] at hok
            cases hok
            simp only [verSatO, true_iff]
            exact contig_between V D hne hc hsub _ _ py hmin hmax hpy
              (Finset.min'_le D py hpy) (Finset.le_max' D py hpy)
          · simp only [if_pos hmin, if_neg hmax] at hok
            cases hok
            simp only [verSatO, verSat, decide_eq_true_eq]
            constructor
            · intro hle
              exact contig_between V D hne hc hsub _ _ py hmin (V.max'_mem hne) hpy
                (Finset.min'_le D py hpy) hle
            · intro hpyV
              exact Finset.le_max' V py hpyV
        · by_cases hmax : D.max' hD ∈ V
          · simp only [if_neg hmin, if_pos hmax] at hok
            cases hok
            simp only [verSatO, verSat, decide_eq_true_eq]
            constructor
            · intro hle
              exact contig_between V D hne hc hsub _ _ py (V.min'_mem hne) hmax hpy
                hle (Finset.le_max' D py hpy)
            · intro hpyV
              exact Finset.min'_le V py hpyV
          · by_cases hcard : V.card = 1
            · simp only [if_neg hmin, if_neg hmax, if_pos hcard] at hok
              cases hok
              rcases Finset.card_eq_one.mp hcard with ⟨v, hv⟩
              subst hv
              simp only [verSatO, verSat, decide_eq_true_eq, Finset.min'_singleton,
                Finset.mem_singleton]
            · simp only [if_neg hmin, if_neg hmax, if_neg hcard] at hok
              cases hok
              simp only [verSatO, verSat, Bool.and_eq_true, decide_eq_true_eq]
              constructor
              · intro ⟨h1, h2⟩
                exact contig_between V D hne hc hsub _ _ py (V.min'_mem hne) (V.max'_mem hne)
                  hpy h1 h2
              · intro hpyV
                exact ⟨Finset.min'_le V py hpyV, Finset.le_max' V py hpyV⟩
      · rw [if_neg hc] at hok
        cases hok
    · rw [dif_neg hne] at hok
      cases hok
  · rw [if_neg hsub] at hok
    cases hok

/-- C5: for every non-empty version subset whose indices in the sorted domain
form a contiguous block, `version_range` returns no constraint when the
subset equals the whole domain, exactly the upper bound on the subset's
maximum when the subset contains the domain minimum but not its maximum,
exactly the lower bound on the subset's minimum in the symmetric case, the
equality constraint for a singleton containing neither endpoint, and the
two-sided range otherwise. -/
theorem c5_version_range_cases (V D : Finset PyVer) (hD : D.Nonempty)
    (hne : V.Nonempty) (hsub : V ⊆ D) (hc : contigCheck V D hne = true) :
    (V = D → version_range_str V D = Except.ok none) ∧
    (D.min' hD ∈ V → D.max' hD ∉ V →
      version_range_str V D =
        Except.ok (some ⟨"python_version<=" ++ q ++ pvStr (V.max' hne) ++ q, false⟩)) ∧
    (D.max' hD ∈ V → D.min' hD ∉ V →
      version_range_str V D =
        Except.ok (some ⟨q ++ pvStr (V.min' hne) ++ q ++ "<=python_version", false⟩)) ∧
    (∀ v, V = {v} → D.min' hD ∉ V → D.max' hD ∉ V →
      version_range_str V D =
        Except.ok (some ⟨"python_version==" ++ q ++ pvStr v ++ q, false⟩)) ∧
    (D.min' hD ∉ V → D.max' hD ∉ V → V.card ≠ 1 →
      version_range_str V D =
        Except.ok (some ⟨q ++ pvStr (V.min' hne) ++ q ++
          "<=python_version and python_version<=" ++ q ++ pvStr (V.max' hne) ++ q, false⟩)) := by
  have hbase : version_range_str V D = (version_range V D).map (Option.map verCondStr) := rfl
  rw [hbase, version_range_eq V D hD, if_pos hsub, dif_pos hne, if_pos hc]
  refine ⟨?_, ?_, ?_, ?_, ?_⟩
  · intro hVD
    subst hVD
    rw [if_pos (Finset.min'_mem V hD), if_pos (Finset.max'_mem V hD)]
    rfl
  · intro hmin hmax
    rw [if_pos hmin, if_neg hmax]
    rfl
  · intro hmax hmin
    rw [if_neg hmin, if_pos hmax]
    rfl
  · intro v hv hmin hmax
    have hcard : V.card = 1 := by rw [hv]; exact Finset.card_singleton v
    rw [if_neg hmin, if_neg hmax, if_pos hcard]
    have : V.min' hne = v := by
      subst hv
      exact Finset.min'_singleton v
    rw [this]
    rfl
  · intro hmin hmax hcard
    rw [if_neg hmin, if_neg hmax, if_neg hcard]
    rfl

theorem c5_witness :
    ({⟨3,8⟩, ⟨3,9⟩} : Finset PyVer).Nonempty ∧
    version_range_str {⟨3,8⟩, ⟨3,9⟩} {⟨3,7⟩, ⟨3,8⟩, ⟨3,9⟩, ⟨3,10⟩} =
      Except.ok (some ⟨q ++ "3.8" ++ q ++ "<=python_version and python_version<=" ++
        q ++ "3.9" ++ q, false⟩) := by
  constructor
  · decide
  · have h := (c5_version_range_cases {⟨3,8⟩, ⟨3,9⟩} {⟨3,7⟩, ⟨3,8⟩, ⟨3,9⟩, ⟨3,10⟩}
      (by decide) (by decide) (by decide) (by decide)).2.2.2.2 (by decide) (by decide) (by decide)
    rw [h]
    decide

/-- C4 counterexample: at a concrete input the two-sided range comes back
flagged `needs_paren = false`, and conjoining it with an OS constraint does
not wrap it in parentheses. -/
theorem c4_counterexample :
    version_range {⟨3,8⟩, ⟨3,9⟩} {⟨3,7⟩, ⟨3,8⟩, ⟨3,9⟩, ⟨3,10⟩} =
      Except.ok (some (VerCond.rng ⟨3,8⟩ ⟨3,9⟩)) ∧
    (verCondStr (VerCond.rng ⟨3,8⟩ ⟨3,9⟩)).needs_paren = false ∧
    combined_constraint (some (osCstrStr (OsCstr.single OsName.ubuntu)))
        (some (verCondStr (VerCond.rng ⟨3,8⟩ ⟨3,9⟩))) =
      some (q ++ "3.8" ++ q ++ "<=python_version and python_version<=" ++ q ++ "3.9" ++ q ++
        " and platform_system==" ++ q ++ "Linux" ++ q) ∧
    ¬ combined_constraint (some (osCstrStr (OsCstr.single OsName.ubuntu)))
        (some (verCondStr (VerCond.rng ⟨3,8⟩ ⟨3,9⟩))) =
      some ("(" ++ q ++ "3.8" ++ q ++ "<=python_version and python_version<=" ++ q ++ "3.9" ++ q ++
        ") and platform_system==" ++ q ++ "Linux" ++ q) := by
  refine ⟨by decide, by decide, by decide, by decide⟩

/-- C4 amended: the two-sided range is flagged as NOT needing parentheses, so
when conjoined with an OS constraint it appears unwrapped on the left of the
`and`. -/
theorem c4_amended_range_unparenthesized (V D : Finset PyVer) (lo hi : PyVer) (oc : CStr)
    (h : version_range V D = Except.ok (some (VerCond.rng lo hi))) :
    version_range_str V D =
      Except.ok (some ⟨q ++ pvStr lo ++ q ++ "<=python_version and python_version<=" ++
        q ++ pvStr hi ++ q, false⟩) ∧
    combined_constraint (some oc)
        ((version_range_str V D).toOption.getD none) =
      some ((q ++ pvStr lo ++ q ++ "<=python_version and python_version<=" ++
        q ++ pvStr hi ++ q) ++ " and " ++ constraint_to_string oc true) := by
  have h1 : version_range_str V D =
      Except.ok (some ⟨q ++ pvStr lo ++ q ++ "<=python_version and python_version<=" ++
        q ++ pvStr hi ++ q, false⟩) := by
    show (version_range V D).map (Option.map verCondStr) = _
    rw [h]
    rfl
  refine ⟨h1, ?_⟩
  rw [h1]
  rfl

theorem c4_witness :
    version_range {⟨3,8⟩, ⟨3,9⟩} {⟨3,7⟩, ⟨3,8⟩, ⟨3,9⟩, ⟨3,10⟩} =
      Except.ok (some (VerCond.rng ⟨3,8⟩ ⟨3,9⟩)) ∧
    combined_constraint (some (osCstrStr (OsCstr.single OsName.ubuntu)))
        ((version_range_str {⟨3,8⟩, ⟨3,9⟩} {⟨3,7⟩, ⟨3,8⟩, ⟨3,9⟩, ⟨3,10⟩}).toOption.getD none) =
      some ((q ++ "3.8" ++ q ++ "<=python_version and python_version<=" ++ q ++ "3.9" ++ q) ++
        " and " ++ constraint_to_string (osCstrStr (OsCstr.single OsName.ubuntu)) true) := by
  have hpre : version_range {⟨3,8⟩, ⟨3,9⟩} {⟨3,7⟩, ⟨3,8⟩, ⟨3,9⟩, ⟨3,10⟩} =
      Except.ok (some (VerCond.rng ⟨3,8⟩ ⟨3,9⟩)) := by decide
  exact ⟨hpre, (c4_amended_range_unparenthesized _ _ _ _ (osCstrStr (OsCstr.single OsName.ubuntu)) hpre).2⟩

/-- Helper: a set sorts to a singleton list. -/
theorem sortL_singleton (a : PyVer) : sortL ({a} : Finset PyVer) = [a] := rfl

theorem sortL_singleton_os (a : OsName) : sortL ({a} : Finset OsName) = [a] := rfl

/-- C6: for every observed OS set contained in the full OS set, `os_constraint`
returns no constraint iff the observed set equals the full set; a single
`platform_system` equality (needs-parens false) for a proper singleton; and a
parenthesized ` or `-joined disjunction flagged needs-parens true for two or
more OSes. -/
theorem c6_os_constraint_spec (A B : Finset OsName) (hsub : A ⊆ B) :
    ((os_constraint A B = none) ↔ A = B) ∧
    (∀ o, A = {o} → A ≠ B →
      (os_constraint A B).map osCstrStr =
        some ⟨"platform_system==" ++ q ++ platform_map o ++ q, false⟩) ∧
    (2 ≤ A.card → A ≠ B →
      (os_constraint A B).map osCstrStr =
        some ⟨"(" ++ String.intercalate " or " ((sortL A).map osEqStr) ++ ")", true⟩) := by
  have hcard_iff : A.card = B.card ↔ A = B := by
    constructor
    · intro h
      exact Finset.eq_of_subset_of_card_le hsub (le_of_eq h.symm)
    · intro h
      rw [h]
  refine ⟨?_, ?_, ?_⟩
  · constructor
    · intro h
      by_contra hne
      have : A.card ≠ B.card := fun hc => hne (hcard_iff.mp hc)
      unfold os_constraint at h
      rw [if_neg this] at h
      rcases hl : sortL A with _ | ⟨x, t⟩
      · rw [hl] at h
        cases h
      · rcases t with _ | ⟨y, t2⟩
        · rw [hl] at h
          cases h
        · rw [hl] at h
          cases h
    · intro h
      unfold os_constraint
      rw [if_pos (hcard_iff.mpr h)]
  · intro o hA hne
    have hcard : A.card ≠ B.card := fun hc => hne (hcard_iff.mp hc)
    unfold os_constraint
    rw [if_neg hcard]
    subst hA
    rw [sortL_singleton_os o]
    rfl
  · intro h2 hne
    have hcard : A.card ≠ B.card := fun hc => hne (hcard_iff.mp hc)
    unfold os_constraint
    rw [if_neg hcard]
    rcases hl : sortL A with _ | ⟨x, t⟩
    · exfalso
      have := sortL_length A
      rw [hl] at this
      simp at this
      omega
    · rcases t with _ | ⟨y, t2⟩
      · exfalso
        have := sortL_length A
        rw [hl] at this
        simp at this
        omega
      · rfl

theorem c6_witness :
    ({OsName.ubuntu} : Finset OsName) ⊆ {OsName.ubuntu, OsName.windows} ∧
    (os_constraint {OsName.ubuntu} {OsName.ubuntu, OsName.windows}).map osCstrStr =
      some ⟨"platform_system==" ++ q ++ "Linux" ++ q, false⟩ := by
  refine ⟨by decide, ?_⟩
  have h := (c6_os_constraint_spec {OsName.ubuntu} {OsName.ubuntu, OsName.windows}
    (by decide)).2.1 OsName.ubuntu (by decide) (by decide)
  rw [h]
  rfl

/-! ## Coverage of the synthesized lines -/

theorem sortL_eq_nil_iff (A : Finset OsName) : sortL A = [] ↔ A = ∅ := by
  constructor
  · intro h
    have := sortL_length A
    rw [h] at this
    simp at this
    exact Finset.card_eq_zero.mp this.symm
  · intro h
    subst h
    rfl

theorem sortL_eq_singleton (A : Finset OsName) (x : OsName) (h : sortL A = [x]) : A = {x} := by
  apply Finset.ext
  intro a
  rw [← sortL_mem, h]
  simp

theorem os_constraint_sat (A B : Finset OsName) (hsub : A ⊆ B) :
    ∀ o ∈ B, (osSatO (os_constraint A B) o = true ↔ o ∈ A) := by
  intro o hoB
  unfold os_constraint
  by_cases hcard : A.card = B.card
  · rw [if_pos hcard]
    have hAB : A = B := Finset.eq_of_subset_of_card_le hsub (le_of_eq hcard.symm)
    subst hAB
    simp [osSatO, hoB]
  · rw [if_neg hcard]
    rcases hl : sortL A with _ | ⟨x, t⟩
    · have hA : A = ∅ := (sortL_eq_nil_iff A).mp hl
      subst hA
      simp [osSatO, osSat]
    · rcases t with _ | ⟨y, t2⟩
      · have hA : A = {x} := sortL_eq_singleton A x hl
        subst hA
        simp [osSatO, osSat]
      · simp only [osSatO, osSat, decide_eq_true_eq]
        rw [← hl, sortL_mem]

theorem mem_pyVersionMap (S : Finset FileParts) (py : PyVer) (o : OsName) :
    o ∈ pyVersionMap S py ↔ ∃ fp ∈ S, fp.py_version = py ∧ fp.os = o := by
  unfold pyVersionMap
  simp only [Finset.mem_image, Finset.mem_filter]
  constructor
  · rintro ⟨fp, ⟨hfpS, hfppy⟩, hfpo⟩
    exact ⟨fp, hfpS, hfppy, hfpo⟩
  · rintro ⟨fp, hfpS, hfppy, hfpo⟩
    exact ⟨fp, ⟨hfpS, hfppy⟩, hfpo⟩

theorem mem_pysOf (S : Finset FileParts) (py : PyVer) :
    py ∈ pysOf S ↔ ∃ fp ∈ S, fp.py_version = py := by
  unfold pysOf
  simp [Finset.mem_image]

theorem mem_groupKeys (S : Finset FileParts) (pyOses : PyVer → Finset OsName)
    (c : Option OsCstr) :
    c ∈ groupKeys S pyOses ↔ ∃ py ∈ pysOf S, groupKey S pyOses py = c := by
  unfold groupKeys
  rw [List.mem_dedup, List.mem_map]
  constructor
  · rintro ⟨py, hpy, hc⟩
    exact ⟨py, (sortL_mem _ py).mp hpy, hc⟩
  · rintro ⟨py, hpy, hc⟩
    exact ⟨py, (sortL_mem _ py).mpr hpy, hc⟩

theorem mem_grpVers (S : Finset FileParts) (pyOses : PyVer → Finset OsName)
    (c : Option OsCstr) (py : PyVer) :
    py ∈ grpVers S pyOses c ↔ py ∈ pysOf S ∧ groupKey S pyOses py = c := by
  unfold grpVers
  rw [Finset.mem_filter]

theorem mem_envDomain (allPy : Finset PyVer) (pyOses : PyVer → Finset OsName)
    (py : PyVer) (o : OsName) :
    (py, o) ∈ envDomain allPy pyOses ↔ py ∈ allPy ∧ o ∈ pyOses py := by
  unfold envDomain
  simp only [Finset.mem_biUnion, Finset.mem_image]
  constructor
  · rintro ⟨py2, hpy2, o2, ho2, heq⟩
    cases heq
    exact ⟨hpy2, ho2⟩
  · rintro ⟨hpy, ho⟩
    exact ⟨py, hpy, o, ho, rfl⟩

theorem collectLines_ok (allPy : Finset PyVer) :
    ∀ (todo : List (Option OsCstr × Finset PyVer)) (ls : List Line),
    collectLines allPy todo = Except.ok ls →
    ((∀ p ∈ todo, ∃ vc, version_range p.2 allPy = Except.ok vc ∧ (vc, p.1) ∈ ls) ∧
     (∀ line ∈ ls, ∃ p ∈ todo, version_range p.2 allPy = Except.ok line.1 ∧ line.2 = p.1)) := by
  intro todo
  induction todo with
  | nil =>
    intro ls h
    unfold collectLines at h
    cases h
    exact ⟨fun p hp => absurd hp (List.not_mem_nil p), fun line hl => absurd hl (List.not_mem_nil line)⟩
  | cons hd tl ih =>
    intro ls h
    rcases hd with ⟨c, vs⟩
    unfold collectLines at h
    rcases h1 : version_range vs allPy with e | vc
    all_goals rcases h2 : collectLines allPy tl with e2 | rest
    all_goals rw [h1, h2] at h
    · cases h
    · cases h
    · cases h
    · cases h
      rcases ih rest h2 with ⟨ihl, ihr⟩
      constructor
      · intro p hp
        rcases List.mem_cons.mp hp with hp1 | hp2
        · subst hp1
          exact ⟨vc, h1, List.mem_cons_self _ _⟩
        · rcases ihl p hp2 with ⟨vc2, hvc2, hmem⟩
          exact ⟨vc2, hvc2, List.mem_cons_of_mem _ hmem⟩
      · intro line hl
        rcases List.mem_cons.mp hl with hl1 | hl2
        · subst hl1
          exact ⟨(c, vs), List.mem_cons_self _ _, h1, rfl⟩
        · rcases ihr line hl2 with ⟨p, hp, hok, heq⟩
          exact ⟨p, List.mem_cons_of_mem _ hp, hok, heq⟩

theorem pyVersionMap_subset (S : Finset FileParts) (pyOses : PyVer → Finset OsName)
    (py : PyVer) (hwf : ∀ fp ∈ S, fp.os ∈ pyOses fp.py_version) :
    pyVersionMap S py ⊆ pyOses py := by
  intro o ho
  rcases (mem_pyVersionMap S py o).mp ho with ⟨fp, hfpS, hfppy, hfpo⟩
  have h1 := hwf fp hfpS
  rw [hfppy, hfpo] at h1
  exact h1

/-- C3: coverage law.  For any observation set whose entries lie in the
collection's domain, if line synthesis succeeds then the set of domain
environments satisfying at least one emitted line's marker equals exactly the
image of the observation set — no environment more, none fewer. -/
theorem c3_coverage (S : Finset FileParts) (pyOses : PyVer → Finset OsName)
    (allPy : Finset PyVer) (ls : List Line)
    (hwf : ∀ fp ∈ S, fp.py_version ∈ allPy ∧ fp.os ∈ pyOses fp.py_version)
    (hok : synthLines S pyOses allPy = Except.ok ls) :
    Finset.filter (fun e => ls.any (fun line => lineSat line e)) (envDomain allPy pyOses) =
      S.image (fun fp => (fp.py_version, fp.os)) := by
  unfold synthLines at hok
  rcases collectLines_ok allPy _ ls hok with ⟨hfwd, hbwd⟩
  apply Finset.ext
  rintro ⟨py, os⟩
  rw [Finset.mem_filter, mem_envDomain]
  constructor
  · rintro ⟨⟨hpy, hos⟩, hsat⟩
    rw [List.any_eq_true] at hsat
    rcases hsat with ⟨line, hline, hls⟩
    rcases hbwd line hline with ⟨p, hp, hokp, heq2⟩
    rcases List.mem_map.mp hp with ⟨c, hc, hcp⟩
    subst hcp
    simp only at hokp heq2
    rcases version_range_sat _ _ _ hokp with ⟨hsub, hne2, hcov⟩
    unfold lineSat at hls
    rw [Bool.and_eq_true] at hls
    have hpygrp : py ∈ grpVers S pyOses c := (hcov py hpy).mp hls.1
    rcases (mem_grpVers S pyOses c py).mp hpygrp with ⟨hpyS, hkey⟩
    have hosA : os ∈ pyVersionMap S py := by
      have h2 := hls.2
      rw [heq2] at h2
      rw [← hkey] at h2
      unfold groupKey at h2
      exact (os_constraint_sat (pyVersionMap S py) (pyOses py)
        (pyVersionMap_subset S pyOses py (fun fp hfp => (hwf fp hfp).2)) os hos).mp h2
    rcases (mem_pyVersionMap S py os).mp hosA with ⟨fp, hfpS, hfppy, hfpo⟩
    rw [Finset.mem_image]
    exact ⟨fp, hfpS, by rw [hfppy, hfpo]⟩
  · intro hmem
    rcases Finset.mem_image.mp hmem with ⟨fp, hfpS, hfppo⟩
    have hpyeq : fp.py_version = py := congrArg Prod.fst hfppo
    have hoseq : fp.os = os := congrArg Prod.snd hfppo
    have hpy : py ∈ allPy := by rw [← hpyeq]; exact (hwf fp hfpS).1
    have hos : os ∈ pyOses py := by
      rw [← hpyeq, ← hoseq]
      exact (hwf fp hfpS).2
    have hpyS : py ∈ pysOf S := (mem_pysOf S py).mpr ⟨fp, hfpS, hpyeq⟩
    have hosA : os ∈ pyVersionMap S py :=
      (mem_pyVersionMap S py os).mpr ⟨fp, hfpS, hpyeq, hoseq⟩
    set c := groupKey S pyOses py with hcdef
    have hcmem : c ∈ groupKeys S pyOses := (mem_groupKeys S pyOses c).mpr ⟨py, hpyS, rfl⟩
    have hptodo : (c, grpVers S pyOses c) ∈
        (groupKeys S pyOses).map (fun c => (c, grpVers S pyOses c)) :=
      List.mem_map.mpr ⟨c, hcmem, rfl⟩
    rcases hfwd _ hptodo with ⟨vc, hvc, hlinemem⟩
    simp only at hvc hlinemem
    rcases version_range_sat _ _ _ hvc with ⟨hsub, hne2, hcov⟩
    have hpygrp : py ∈ grpVers S pyOses c := (mem_grpVers S pyOses c py).mpr ⟨hpyS, rfl⟩
    refine ⟨⟨hpy, hos⟩, ?_⟩
    rw [List.any_eq_true]
    refine ⟨(vc, c), hlinemem, ?_⟩
    unfold lineSat
    rw [Bool.and_eq_true]
    constructor
    · exact (hcov py hpy).mpr hpygrp
    · show osSatO c os = true
      rw [hcdef]
      unfold groupKey
      exact (os_constraint_sat (pyVersionMap S py) (pyOses py)
        (pyVersionMap_subset S pyOses py (fun fp hfp => (hwf fp hfp).2)) os hos).mpr hosA

theorem c3_witness :
    Finset.filter
        (fun e => (([(some (VerCond.ub ⟨3,9⟩), some (OsCstr.single OsName.ubuntu)),
            (some (VerCond.lb ⟨3,10⟩), none)] : List Line)).any (fun line => lineSat line e))
        (envDomain {⟨3,9⟩, ⟨3,10⟩}
          (fun py => if py = ⟨3,9⟩ then {OsName.ubuntu, OsName.macos, OsName.windows}
            else if py = ⟨3,10⟩ then {OsName.ubuntu} else ∅)) =
      Finset.image (fun fp => (fp.py_version, fp.os))
        ({⟨OsName.ubuntu, ⟨3,9⟩, "t"⟩, ⟨OsName.ubuntu, ⟨3,10⟩, "t"⟩} : Finset FileParts) := by
  exact c3_coverage
    {⟨OsName.ubuntu, ⟨3,9⟩, "t"⟩, ⟨OsName.ubuntu, ⟨3,10⟩, "t"⟩}
    (fun py => if py = ⟨3,9⟩ then {OsName.ubuntu, OsName.macos, OsName.windows}
      else if py = ⟨3,10⟩ then {OsName.ubuntu} else ∅)
    {⟨3,9⟩, ⟨3,10⟩}
    [(some (VerCond.ub ⟨3,9⟩), some (OsCstr.single OsName.ubuntu)),
     (some (VerCond.lb ⟨3,10⟩), none)]
    (by decide) (by decide)

/-- C1 (code bug): at this input the only conflict is at environment
`(3.8, ubuntu)`, yet resolution also removes version `2.0`'s observation at
`(3.9, ubuntu)` — same os, different python version — because the removal
condition tests only `file_parts.os == k[1]`. -/
theorem c1_resolver_removes_other_environment :
    resolveReq [("1.0", {⟨OsName.ubuntu, ⟨3,8⟩, "main"⟩}),
                ("2.0", {⟨OsName.ubuntu, ⟨3,8⟩, "other"⟩, ⟨OsName.ubuntu, ⟨3,9⟩, "main"⟩})] =
      [("1.0", {⟨OsName.ubuntu, ⟨3,8⟩, "main"⟩}), ("2.0", ∅)] ∧
    isConflict [("1.0", {⟨OsName.ubuntu, ⟨3,8⟩, "main"⟩}),
                ("2.0", {⟨OsName.ubuntu, ⟨3,8⟩, "other"⟩, ⟨OsName.ubuntu, ⟨3,9⟩, "main"⟩})]
      (⟨3,8⟩, OsName.ubuntu) ∧
    ¬ isConflict [("1.0", {⟨OsName.ubuntu, ⟨3,8⟩, "main"⟩}),
                ("2.0", {⟨OsName.ubuntu, ⟨3,8⟩, "other"⟩, ⟨OsName.ubuntu, ⟨3,9⟩, "main"⟩})]
      (⟨3,9⟩, OsName.ubuntu) := by
  refine ⟨by decide, by decide, by decide⟩

/-- C2 (code bug): environment `(3.11, windows)` is observed for exactly one
version before resolution, but for zero versions afterwards: the conflict at
`(3.10, windows)` removed every windows observation of version `2.2`. -/
theorem c2_environment_loses_all_versions :
    revMap [("1.1", {⟨OsName.windows, ⟨3,10⟩, "a"⟩}),
            ("2.2", {⟨OsName.windows, ⟨3,10⟩, "b"⟩, ⟨OsName.windows, ⟨3,11⟩, "a"⟩})]
        (⟨3,11⟩, OsName.windows) = ["2.2"] ∧
    revMap (resolveReq [("1.1", {⟨OsName.windows, ⟨3,10⟩, "a"⟩}),
            ("2.2", {⟨OsName.windows, ⟨3,10⟩, "b"⟩, ⟨OsName.windows, ⟨3,11⟩, "a"⟩})])
        (⟨3,11⟩, OsName.windows) = [] := by
  refine ⟨by decide, by decide⟩

/-! ## Safety of the `version_range` call sites -/

theorem resolveReq_mem (m : ReqMap) (p : PkgVer × Finset FileParts) (hp : p ∈ resolveReq m) :
    ∃ p0 ∈ m, p.1 = p0.1 ∧ p.2 ⊆ p0.2 := by
  unfold resolveReq at hp
  rcases List.mem_map.mp hp with ⟨p0, hp0, heq⟩
  refine ⟨p0, hp0, ?_, ?_⟩
  · rw [← heq]
  · rw [← heq]
    exact Finset.filter_subset _ _

/-- C10: with every recorded python version inside `all_py_versions`, each
`version_range` call of `get_reqs` receives a non-empty set of versions drawn
from the domain, and the contiguity assertion is the only failure it can
produce. -/
theorem c10_version_range_calls_safe (meta : CollectionMetadata)
    (hwf : ∀ rp ∈ meta.reqs, ∀ vp ∈ rp.2, ∀ fp ∈ vp.2,
      fp.py_version ∈ meta.all_py_versions) :
    ∀ V ∈ versionRangeCalls meta, V.Nonempty ∧ V ⊆ meta.all_py_versions ∧
      ∀ e, version_range V meta.all_py_versions = Except.error e → e = RErr.assertionError := by
  intro V hV
  unfold versionRangeCalls at hV
  rcases List.mem_flatMap.mp hV with ⟨rp, hrp, hV2⟩
  rcases List.mem_flatMap.mp hV2 with ⟨vp, hvp, hV3⟩
  rcases List.mem_map.mp hV3 with ⟨c, hc, hVc⟩
  subst hVc
  have hne : (grpVers vp.2 meta.py_version_oses c).Nonempty := by
    rcases (mem_groupKeys _ _ c).mp hc with ⟨py, hpy, hkey⟩
    exact ⟨py, (mem_grpVers _ _ c py).mpr ⟨hpy, hkey⟩⟩
  have hsub : grpVers vp.2 meta.py_version_oses c ⊆ meta.all_py_versions := by
    intro py hpy
    rcases (mem_grpVers _ _ c py).mp hpy with ⟨hpyS, _⟩
    rcases (mem_pysOf _ py).mp hpyS with ⟨fp, hfp, hfppy⟩
    rcases resolveReq_mem rp.2 vp hvp with ⟨vp0, hvp0, _, hsub2⟩
    have := hwf rp hrp vp0 hvp0 fp (hsub2 hfp)
    rw [hfppy] at this
    exact this
  refine ⟨hne, hsub, ?_⟩
  intro e herr
  have hD : meta.all_py_versions.Nonempty := by
    rcases hne with ⟨py, hpy⟩
    exact ⟨py, hsub hpy⟩
  rw [version_range_eq _ _ hD, if_pos hsub, dif_pos hne] at herr
  by_cases hcontig : contigCheck (grpVers vp.2 meta.py_version_oses c) meta.all_py_versions hne = true
  · rw [if_pos hcontig] at herr
    exfalso
    split_ifs at herr
  · rw [if_neg hcontig] at herr
    cases herr
    rfl

theorem c10_witness :
    (({⟨3,8⟩, ⟨3,9⟩} : Finset PyVer).Nonempty ∧
      ({⟨3,8⟩, ⟨3,9⟩} : Finset PyVer) ⊆ ({⟨3,8⟩, ⟨3,9⟩} : Finset PyVer) ∧
      ∀ e, version_range {⟨3,8⟩, ⟨3,9⟩} {⟨3,8⟩, ⟨3,9⟩} = Except.error e →
        e = RErr.assertionError) := by
  exact c10_version_range_calls_safe
    ⟨{⟨OsName.ubuntu, ⟨3,8⟩, "t"⟩, ⟨OsName.ubuntu, ⟨3,9⟩, "t"⟩},
      (fun _ => {OsName.ubuntu}),
      {⟨3,8⟩, ⟨3,9⟩},
      [("foo", [("1.0", {⟨OsName.ubuntu, ⟨3,8⟩, "t"⟩, ⟨OsName.ubuntu, ⟨3,9⟩, "t"⟩})])]⟩
    (by decide) {⟨3,8⟩, ⟨3,9⟩} (by decide)

/-- C7 (code bug): a file whose name matches neither pattern is not silently
skipped once it has any line: `file_match` is `None` and the guard
`file_match.group(2)` raises AttributeError, aborting the run. -/
theorem c7_nonmatching_file_fatal :
    classifyFile "README.md" = none ∧
    processLine "README.md" "some text" ⟨∅, fun _ => ∅, ∅, []⟩ ⟨∅, fun _ => ∅, ∅, []⟩ =
      Except.error PyErr.attributeError :=
  ⟨rfl, rfl⟩

/-- C8 counterexample: in a classified test file, a comment line (no `==`) is
not ignored — the per-line body raises AttributeError at `match.group(1)`. -/
theorem c8_counterexample :
    classifyFile "tests-ubuntu-latest-3.8-all-requirements.txt" =
      some (FileMatch.test ⟨OsName.ubuntu, ⟨3,8⟩, "all"⟩) ∧
    reqMatch "# a comment" = none ∧
    processLine "tests-ubuntu-latest-3.8-all-requirements.txt" "# a comment"
        ⟨∅, fun _ => ∅, ∅, []⟩ ⟨∅, fun _ => ∅, ∅, []⟩ = Except.error PyErr.attributeError :=
  ⟨rfl, rfl, rfl⟩

/-- C8 amended: for every classified file, every line not of the form
`name==version` is fatal (AttributeError), rather than being ignored. -/
theorem c8_amended_nonmatching_line_fatal (file line : String) (r : FileMatch)
    (tm nm : CollectionMetadata) (hfile : classifyFile file = some r)
    (hline : reqMatch line = none) :
    processLine file line tm nm = Except.error PyErr.attributeError := by
  unfold processLine
  rw [hfile]
  cases r <;> simp [hline]

theorem c8_witness :
    processLine "notebooks-nb-3.9-requirements.txt" "-e ." ⟨∅, fun _ => ∅, ∅, []⟩
        ⟨∅, fun _ => ∅, ∅, []⟩ = Except.error PyErr.attributeError :=
  c8_amended_nonmatching_line_fatal _ _ (FileMatch.notebook ⟨OsName.ubuntu, ⟨3,9⟩, "nb"⟩) _ _
    rfl rfl

/-! ## Soundness and completeness of the filename classifier -/

theorem stripL_sound : ∀ (p l r : List Char), stripL p l = some r → l = p ++ r := by
  intro p
  induction p with
  | nil =>
    intro l r h
    unfold stripL at h
    cases h
    rfl
  | cons x xt ih =>
    intro l r h
    cases l with
    | nil =>
      unfold stripL at h
      cases h
    | cons c cs =>
      unfold stripL at h
      by_cases hx : x = c
      · rw [if_pos hx] at h
        have h2 := ih cs r h
        rw [List.cons_append, ← hx, h2]
      · rw [if_neg hx] at h
        cases h

theorem stripL_append (p r : List Char) : stripL p (p ++ r) = some r := by
  induction p with
  | nil => rfl
  | cons x xt ih => simp [stripL, ih]

theorem takeWhile_append_all (P : Char → Bool) (xs : List Char) (y : Char) (ys : List Char)
    (hall : ∀ x ∈ xs, P x = true) (hy : P y = false) :
    (xs ++ y :: ys).takeWhile P = xs ∧ (xs ++ y :: ys).dropWhile P = y :: ys := by
  induction xs with
  | nil => simp [List.takeWhile, List.dropWhile, hy]
  | cons x xt ih =>
    have hx : P x = true := hall x (List.mem_cons_self _ _)
    have iht := ih (fun z hz => hall z (List.mem_cons_of_mem _ hz))
    constructor
    · simp only [List.cons_append, List.takeWhile_cons, hx, if_true, iht.1]
    · simp only [List.cons_append, List.dropWhile_cons, hx, if_true, iht.2]

theorem matchEnd_iff (l : List Char) :
    matchEnd l = true ↔ ∃ c t, c ≠ '\n' ∧ tailOk t ∧ l = c :: (chars "txt" ++ t) := by
  constructor
  · intro h
    cases l with
    | nil =>
      exact absurd h (by decide)
    | cons c rest =>
      unfold matchEnd at h
      rw [Bool.and_eq_true] at h
      rcases h with ⟨hc, hrest⟩
      rcases hs : stripL (chars "txt") rest with _ | t
      · rw [hs] at hrest
        cases hrest
      · rw [hs] at hrest
        have hrt : rest = chars "txt" ++ t := stripL_sound _ _ _ hs
        refine ⟨c, t, by simpa using hc, ?_, by rw [hrt]⟩
        cases t with
        | nil => exact Or.inl rfl
        | cons c2 t2 =>
          cases t2 with
          | nil =>
            unfold tailOkB at hrest
            have : c2 = '\n' := by simpa using hrest
            exact Or.inr (by rw [this])
          | cons c3 t3 =>
            exact absurd hrest (by simp [tailOkB])
  · rintro ⟨c, t, hc, ht, hl⟩
    subst hl
    unfold matchEnd
    rw [Bool.and_eq_true]
    refine ⟨by simpa using hc, ?_⟩
    rw [stripL_append]
    rcases ht with h1 | h1 <;> subst h1 <;> decide

theorem stripL_cons_ne (p : Char) (ps : List Char) (c : Char) (cs : List Char) (h : p ≠ c) :
    stripL (p :: ps) (c :: cs) = none := by
  simp [stripL, h]

theorem parseOs_sound (l : List Char) (os : OsName) (r : List Char)
    (h : parseOs l = some (os, r)) : l = osChars os ++ r := by
  unfold parseOs at h
  rcases h1 : stripL (chars "macos") l with _ | r1
  · rw [h1] at h
    rcases h2 : stripL (chars "ubuntu") l with _ | r2
    · rw [h2] at h
      rcases h3 : stripL (chars "windows") l with _ | r3
      · rw [h3] at h
        cases h
      · rw [h3] at h
        cases h
        exact stripL_sound _ _ _ h3
    · rw [h2] at h
      cases h
      exact stripL_sound _ _ _ h2
  · rw [h1] at h
    cases h
    exact stripL_sound _ _ _ h1

theorem parseOs_complete (os : OsName) (r : List Char) :
    parseOs (osChars os ++ r) = some (os, r) := by
  cases os
  · show parseOs (chars "macos" ++ r) = _
    unfold parseOs
    rw [stripL_append]
  · show parseOs (chars "ubuntu" ++ r) = _
    unfold parseOs
    have e1 : chars "ubuntu" ++ r = 'u' :: (chars "buntu" ++ r) := rfl
    have e2 : chars "macos" = 'm' :: chars "acos" := rfl
    rw [e1, e2, stripL_cons_ne _ _ _ _ (by decide), ← e1, stripL_append]
  · show parseOs (chars "windows" ++ r) = _
    unfold parseOs
    have e1 : chars "windows" ++ r = 'w' :: (chars "indows" ++ r) := rfl
    have e2 : chars "macos" = 'm' :: chars "acos" := rfl
    have e3 : chars "ubuntu" = 'u' :: chars "buntu" := rfl
    rw [e1, e2, stripL_cons_ne _ _ _ _ (by decide), e3,
      stripL_cons_ne _ _ _ _ (by decide), ← e1, stripL_append]
    rfl

theorem matchAReq_sound (os : OsName) (mn : Nat) (jt : String) (r6 : List Char) (fp : FileParts)
    (h : matchAReq os mn jt r6 = some fp) :
    fp = ⟨os, ⟨3, mn⟩, jt⟩ ∧
      ∃ c t, c ≠ '\n' ∧ tailOk t ∧ r6 = chars "-requirements" ++ (c :: (chars "txt" ++ t)) := by
  unfold matchAReq at h
  rw [Option.bind_eq_some] at h
  rcases h with ⟨r7, hstrip, hif⟩
  by_cases hend : matchEnd r7 = true
  · rw [if_pos hend] at hif
    cases hif
    rcases (matchEnd_iff r7).mp hend with ⟨c, t, hc, ht, hr7⟩
    refine ⟨rfl, c, t, hc, ht, ?_⟩
    rw [stripL_sound _ _ _ hstrip, hr7]
  · rw [if_neg hend] at hif
    cases hif

theorem matchAReq_complete (os : OsName) (mn : Nat) (jt : String) (c : Char) (t : List Char)
    (hc : c ≠ '\n') (ht : tailOk t) :
    matchAReq os mn jt (chars "-requirements" ++ (c :: (chars "txt" ++ t))) =
      some ⟨os, ⟨3, mn⟩, jt⟩ := by
  unfold matchAReq
  rw [stripL_append]
  have hend : matchEnd (c :: (chars "txt" ++ t)) = true :=
    (matchEnd_iff _).mpr ⟨c, t, hc, ht, rfl⟩
  simp [hend]

theorem matchADash_sound (os : OsName) (mn : Nat) (r4 : List Char) (fp : FileParts)
    (h : matchADash os mn r4 = some fp) :
    ∃ jt r6, jtAOk jt ∧ r4 = '-' :: (jt ++ r6) ∧
      matchAReq os mn (String.mk jt) r6 = some fp := by
  cases r4 with
  | nil =>
    simp only [matchADash] at h
    cases h
  | cons c r5 =>
    simp only [matchADash] at h
    by_cases hc : c = '-'
    · rw [if_pos hc] at h
      by_cases hjt : r5.takeWhile (fun x => x != '-') = []
      · rw [if_pos hjt] at h
        cases h
      · rw [if_neg hjt] at h
        subst hc
        refine ⟨r5.takeWhile (fun x => x != '-'), r5.dropWhile (fun x => x != '-'), ⟨hjt, ?_⟩,
          ?_, h⟩
        · intro x hx
          have hx2 := List.mem_takeWhile_imp hx
          simpa using hx2
        · rw [List.takeWhile_append_dropWhile]
    · rw [if_neg hc] at h
      cases h

theorem matchADash_complete (os : OsName) (mn : Nat) (jt : List Char) (r6 : List Char)
    (hjt : jtAOk jt) :
    matchADash os mn ('-' :: (jt ++ '-' :: r6)) = matchAReq os mn (String.mk jt) ('-' :: r6) := by
  simp only [matchADash, if_true]
  have htw := takeWhile_append_all (fun x => x != '-') jt '-' r6
    (fun x hx => by simpa using hjt.2 x hx) (by decide)
  rw [htw.1, htw.2, if_neg hjt.1]

theorem matchADigits_sound (os : OsName) (r3 : List Char) (fp : FileParts)
    (h : matchADigits os r3 = some fp) :
    ∃ ds r4, digitsOk ds ∧ r3 = ds ++ r4 ∧ matchADash os (dsVal ds) r4 = some fp := by
  unfold matchADigits at h
  by_cases hds : r3.takeWhile Char.isDigit = []
  · rw [if_pos hds] at h
    cases h
  · rw [if_neg hds] at h
    refine ⟨r3.takeWhile Char.isDigit, r3.dropWhile Char.isDigit, ⟨hds, ?_⟩, ?_, h⟩
    · intro x hx
      exact List.mem_takeWhile_imp hx
    · rw [List.takeWhile_append_dropWhile]

theorem matchADigits_complete (os : OsName) (ds : List Char) (r5 : List Char)
    (hds : digitsOk ds) :
    matchADigits os (ds ++ '-' :: r5) = matchADash os (dsVal ds) ('-' :: r5) := by
  unfold matchADigits
  have htw := takeWhile_append_all Char.isDigit ds '-' r5 hds.2 (by decide)
  rw [htw.1, htw.2, if_neg hds.1]

theorem matchA_sound (l : List Char) (fp : FileParts) (h : matchA l = some fp) :
    formA l fp.os fp.py_version.minor fp.type.data ∧ fp.py_version.major = 3 := by
  unfold matchA at h
  rw [Option.bind_eq_some] at h
  rcases h with ⟨r1, hs1, h⟩
  rw [Option.bind_eq_some] at h
  rcases h with ⟨p, hos, h⟩
  rcases p with ⟨os, r2⟩
  dsimp only at h
  rw [Option.bind_eq_some] at h
  rcases h with ⟨r3, hs3, h⟩
  rcases matchADigits_sound _ _ _ h with ⟨ds, r4, hds, hr3, h4⟩
  rcases matchADash_sound _ _ _ _ h4 with ⟨jt, r6, hjt, hr4, h5⟩
  rcases matchAReq_sound _ _ _ _ _ h5 with ⟨hfp, c, t, hc, ht, hr6⟩
  subst hfp
  refine ⟨⟨ds, c, t, hds, hjt, hc, ht, rfl, ?_⟩, rfl⟩
  have e1 := stripL_sound _ _ _ hs1
  have e2 := parseOs_sound _ _ _ hos
  have e3 := stripL_sound _ _ _ hs3
  rw [e1, e2, e3, hr3, hr4, hr6]
  simp [List.append_assoc]

theorem matchA_complete (l : List Char) (os : OsName) (mn : Nat) (jt : List Char)
    (h : formA l os mn jt) : matchA l = some ⟨os, ⟨3, mn⟩, String.mk jt⟩ := by
  rcases h with ⟨ds, c, t, hds, hjt, hc, ht, hmn, hl⟩
  subst hmn
  subst hl
  have e0 : chars "tests-" ++ osChars os ++ chars "-latest-3." ++ ds ++
      '-' :: (jt ++ chars "-requirements" ++ c :: (chars "txt" ++ t)) =
      chars "tests-" ++ (osChars os ++ (chars "-latest-3." ++ (ds ++
        '-' :: (jt ++ (chars "-requirements" ++ (c :: (chars "txt" ++ t))))))) := by
    simp [List.append_assoc]
  rw [e0]
  unfold matchA
  rw [stripL_append, Option.some_bind, parseOs_complete, Option.some_bind, stripL_append,
    Option.some_bind, matchADigits_complete os ds _ hds]
  have e : jt ++ (chars "-requirements" ++ (c :: (chars "txt" ++ t))) =
      jt ++ '-' :: (chars "requirements" ++ (c :: (chars "txt" ++ t))) := rfl
  rw [e, matchADash_complete _ _ _ _ hjt]
  exact matchAReq_complete os _ (String.mk jt) c t hc ht

theorem matchBTail_sound (l : List Char) (mn : Nat) (h : matchBTail l = some mn) :
    ∃ ds c t, digitsOk ds ∧ c ≠ '\n' ∧ tailOk t ∧ mn = dsVal ds ∧
      l = chars "3." ++ ds ++ chars "-requirements" ++ c :: (chars "txt" ++ t) := by
  unfold matchBTail at h
  rw [Option.bind_eq_some] at h
  rcases h with ⟨r1, hs1, h⟩
  set ds := r1.takeWhile Char.isDigit with hdsdef
  by_cases hds : ds = []
  · rw [if_pos hds] at h
    cases h
  · rw [if_neg hds] at h
    rw [Option.bind_eq_some] at h
    rcases h with ⟨r3, hs3, hif⟩
    by_cases hend : matchEnd r3 = true
    · rw [if_pos hend] at hif
      cases hif
      rcases (matchEnd_iff r3).mp hend with ⟨c, t, hc, ht, hr3⟩
      refine ⟨ds, c, t, ⟨hds, fun x hx => List.mem_takeWhile_imp (hdsdef ▸ hx)⟩,
        hc, ht, rfl, ?_⟩
      have e1 := stripL_sound _ _ _ hs1
      have e3 := stripL_sound _ _ _ hs3
      have e2 : r1 = ds ++ (chars "-requirements" ++ r3) := by
        rw [← e3, hdsdef]
        exact (List.takeWhile_append_dropWhile Char.isDigit r1).symm
      rw [hr3] at e2
      rw [e1, e2]
      simp [List.append_assoc]
    · rw [if_neg hend] at hif
      cases hif

theorem matchBTail_complete (ds : List Char) (c : Char) (t : List Char)
    (hds : digitsOk ds) (hc : c ≠ '\n') (ht : tailOk t) :
    matchBTail (chars "3." ++ (ds ++ (chars "-requirements" ++ (c :: (chars "txt" ++ t))))) =
      some (dsVal ds) := by
  unfold matchBTail
  rw [stripL_append, Option.some_bind]
  have e : ds ++ (chars "-requirements" ++ (c :: (chars "txt" ++ t))) =
      ds ++ '-' :: (chars "requirements" ++ (c :: (chars "txt" ++ t))) := rfl
  rw [e]
  have htw := takeWhile_append_all Char.isDigit ds '-'
    (chars "requirements" ++ (c :: (chars "txt" ++ t))) hds.2 (by decide)
  rw [htw.1, htw.2, if_neg hds.1]
  have e2 : ('-' :: (chars "requirements" ++ (c :: (chars "txt" ++ t)))) =
      chars "-requirements" ++ (c :: (chars "txt" ++ t)) := rfl
  rw [e2, stripL_append, Option.some_bind]
  have hend : matchEnd (c :: (chars "txt" ++ t)) = true :=
    (matchEnd_iff _).mpr ⟨c, t, hc, ht, rfl⟩
  rw [if_pos hend]

theorem findSome?_isSome_of_mem {α β : Type} (f : α → Option β) (l : List α) (a : α)
    (ha : a ∈ l) (hf : (f a).isSome) : (l.findSome? f).isSome := by
  induction l with
  | nil => cases ha
  | cons x xs ih =>
    rw [List.findSome?_cons]
    rcases hx : f x with _ | b
    · rcases List.mem_cons.mp ha with h1 | h2
      · subst h1
        rw [hx] at hf
        cases hf
      · exact ih h2
    · rfl

theorem matchB_sound (l : List Char) (jt : String) (mn : Nat)
    (h : matchB l = some (jt, mn)) : formB l jt.data mn := by
  unfold matchB at h
  rw [Option.bind_eq_some] at h
  rcases h with ⟨r, hs, hfind⟩
  rcases List.exists_of_findSome?_eq_some hfind with ⟨i, hi_mem, hi⟩
  unfold matchBAt at hi
  by_cases hnl : '\n' ∈ r.take i
  · rw [if_pos hnl] at hi
    cases hi
  · rw [if_neg hnl] at hi
    rcases hd : r.drop i with _ | ⟨c, rest⟩
    · rw [hd] at hi
      simp only [matchBDash] at hi
      cases hi
    · rw [hd] at hi
      simp only [matchBDash] at hi
      by_cases hc : c = '-'
      · rw [if_pos hc] at hi
        rw [Option.map_eq_some'] at hi
        rcases hi with ⟨n, hbt, heq⟩
        injection heq with h1 h2
        subst h1
        subst h2
        rcases matchBTail_sound rest _ hbt with ⟨ds, c2, t, hds, hc2, ht, hmn, hrest⟩
        refine ⟨ds, c2, t, hds, hnl, hc2, ht, hmn, ?_⟩
        have e1 := stripL_sound _ _ _ hs
        set g7 := r.take i with hg7
        have e2 : r = g7 ++ r.drop i := (List.take_append_drop i r).symm
        rw [e1, e2, hd, hc, hrest]
      · rw [if_neg hc] at hi
        cases hi

theorem matchB_complete (l : List Char) (jt : List Char) (mn : Nat) (h : formB l jt mn) :
    (matchB l).isSome := by
  rcases h with ⟨ds, c, t, hds, hnl, hc, ht, hmn, hl⟩
  subst hmn
  subst hl
  unfold matchB
  rw [stripL_append, Option.some_bind]
  apply findSome?_isSome_of_mem _ _ jt.length
  · rw [List.mem_reverse, List.mem_range]
    have : jt.length ≤ (jt ++ '-' :: (chars "3." ++ ds ++ chars "-requirements" ++
        c :: (chars "txt" ++ t))).length := by
      rw [List.length_append]
      omega
    omega
  · unfold matchBAt
    rw [List.take_left, if_neg hnl, List.drop_left]
    simp only [matchBDash, if_pos rfl]
    have e0 : chars "3." ++ ds ++ chars "-requirements" ++ c :: (chars "txt" ++ t) =
        chars "3." ++ (ds ++ (chars "-requirements" ++ (c :: (chars "txt" ++ t)))) := by
      simp [List.append_assoc]
    rw [e0, matchBTail_complete ds c t hds hc ht]
    rfl

/-- C9 amended: the classifier accepts exactly the filenames of the two
regex shapes — which differ from the literal `.txt` forms in that the
character before `txt` may be any non-newline character and a single
trailing newline is tolerated — and returns the parsed fields. -/
theorem c9_classifier_amended (l : List Char) :
    ((classifyList l).isSome ↔
      ((∃ os mn jt, formA l os mn jt) ∨ (∃ jt mn, formB l jt mn))) ∧
    (∀ fp, classifyList l = some (FileMatch.test fp) →
      formA l fp.os fp.py_version.minor fp.type.data ∧ fp.py_version.major = 3) ∧
    (∀ fp, classifyList l = some (FileMatch.notebook fp) →
      formB l fp.type.data fp.py_version.minor ∧ fp.os = OsName.ubuntu ∧
        fp.py_version.major = 3) := by
  refine ⟨⟨?_, ?_⟩, ?_, ?_⟩
  · intro hsome
    unfold classifyList at hsome
    rcases ha : matchA l with _ | fp
    · rw [ha] at hsome
      rcases hb : matchB l with _ | p
      · rw [hb] at hsome
        cases hsome
      · right
        exact ⟨p.1.data, p.2, matchB_sound l p.1 p.2 (by rw [hb])⟩
    · left
      rcases matchA_sound l fp ha with ⟨hform, _⟩
      exact ⟨fp.os, fp.py_version.minor, fp.type.data, hform⟩
  · intro hform
    unfold classifyList
    rcases ha : matchA l with _ | fp
    · rcases hform with ⟨os, mn, jt, hA⟩ | ⟨jt, mn, hB⟩
      · rw [matchA_complete l os mn jt hA] at ha
        cases ha
      · have hb := matchB_complete l jt mn hB
        rcases hbe : matchB l with _ | p
        · rw [hbe] at hb
          cases hb
        · rfl
    · rfl
  · intro fp h
    unfold classifyList at h
    rcases ha : matchA l with _ | fp2
    · rw [ha] at h
      rcases hb : matchB l with _ | p
      · rw [hb] at h
        cases h
      · rw [hb] at h
        cases h
    · rw [ha] at h
      cases h
      exact matchA_sound l _ ha
  · intro fp h
    unfold classifyList at h
    rcases ha : matchA l with _ | fp2
    · rw [ha] at h
      rcases hb : matchB l with _ | p
      · rw [hb] at h
        cases h
      · rw [hb] at h
        cases h
        refine ⟨?_, rfl, rfl⟩
        exact matchB_sound l p.1 p.2 (by rw [hb])
    · rw [ha] at h
      cases h

theorem c9_witness :
    formA (chars "tests-windows-latest-3.10-cov-requirements.txt") OsName.windows 10
      (chars "cov") :=
  ((c9_classifier_amended (chars "tests-windows-latest-3.10-cov-requirements.txt")).2.1
    ⟨OsName.windows, ⟨3,10⟩, "cov"⟩ (by decide)).1

theorem specForm_ends_dot_txt (l : List Char) (h : specForm l) :
    l.drop (l.length - 4) = chars ".txt" := by
  have key : ∀ A : List Char, l = A ++ chars ".txt" → l.drop (l.length - 4) = chars ".txt" := by
    intro A hA
    subst hA
    have hlen : (A ++ chars ".txt").length = A.length + 4 := by
      rw [List.length_append]
      rfl
    rw [hlen]
    have : A.length + 4 - 4 = A.length := by omega
    rw [this, List.drop_left]
  rcases h with ⟨os, ds, jt, hds, hjt, hl⟩ | ⟨jt, ds, hds, hnl, hl⟩
  · refine key (chars "tests-" ++ osChars os ++ chars "-latest-3." ++ ds ++
      '-' :: (jt ++ chars "-requirements")) ?_
    rw [hl]
    have e : chars "-requirements.txt" = chars "-requirements" ++ chars ".txt" := rfl
    rw [e]
    simp [List.append_assoc]
  · refine key (chars "notebooks-" ++ (jt ++ '-' :: (chars "3." ++ ds ++
      chars "-requirements"))) ?_
    rw [hl]
    have e : chars "-requirements.txt" = chars "-requirements" ++ chars ".txt" := rfl
    rw [e]
    simp [List.append_assoc]

/-- C9 counterexample: the unescaped dot of `requirements.txt` lets the
classifier accept `notebooks-a-3.8-requirementsXtxt`, and the `$` anchor lets
it accept a filename with a trailing newline; neither is of the literal
`.txt`-anchored form stated by the specification. -/
theorem c9_counterexample :
    (classifyFile "notebooks-a-3.8-requirementsXtxt" =
      some (FileMatch.notebook ⟨OsName.ubuntu, ⟨3,8⟩, "a"⟩) ∧
    ¬ specForm (chars "notebooks-a-3.8-requirementsXtxt")) ∧
    (classifyFile "notebooks-b-3.9-requirements.txt\n" =
      some (FileMatch.notebook ⟨OsName.ubuntu, ⟨3,9⟩, "b"⟩) ∧
    ¬ specForm (chars "notebooks-b-3.9-requirements.txt\n")) := by
  refine ⟨⟨by decide, ?_⟩, by decide, ?_⟩
  · intro h
    have h2 := specForm_ends_dot_txt _ h
    revert h2
    decide
  · intro h
    have h2 := specForm_ends_dot_txt _ h
    revert h2
    decide
